import Mathlib

/-!
Shallow embedding of the Record Filtering & Aggregation Engine of the
Ai-agent-dashboard repository (sources: `Dashboard` in `src/unnamed/part_000`,
`Conversations.tsx` (which also contains the `Analytics` component),
`SemanticAnalysisTable.tsx`, `Meetings.tsx`).

Conventions of the embedding:
* JavaScript `null`-able fields become `Option`.
* JavaScript numbers that the code only ever uses as integers become `Int`/`Nat`;
  numbers used with division become `ℚ`, with the single reachable IEEE special
  value (`0/0 = NaN` in `avgConfidence`) made explicit by the `JsNum` sum type.
* Local wall-clock instants are modelled as a day index plus milliseconds of
  the day; `Date.setHours(0,0,0,0)` becomes "set ms to 0",
  `Date.setDate(getDate() - k)` becomes "subtract k from the day index".
* JavaScript object key enumeration (`Object.keys` / `Object.entries`) is
  modelled faithfully: keys that are array indices (canonical decimal strings
  with value < 2^32 - 1) enumerate first in ascending numeric order, the
  remaining keys in insertion order.  `Array.prototype.sort` is stable
  (ES2019), modelled by a stable insertion sort.
-/

namespace AiDash

/-! ## Date Window Calculator (Dashboard `getDatesFromRange`, Analytics `fetchAnalytics`) -/

/-- A local wall-clock instant: a day index (days since some fixed epoch, in
local time) and the milliseconds elapsed within that day. -/
structure LocalInstant where
  day : ℤ
  msOfDay : ℕ
  deriving DecidableEq, Repr

/-- `d.setHours(0, 0, 0, 0)`: local midnight of the same date. -/
def atMidnight (t : LocalInstant) : LocalInstant := ⟨t.day, 0⟩

/-- `d.setHours(23, 59, 59, 999)`: last millisecond of the same date. -/
def atEndOfDay (t : LocalInstant) : LocalInstant := ⟨t.day, 86399999⟩

/-- `d.setDate(d.getDate() + n)`: shift by whole calendar days, keeping the
time of day. -/
def addDays (t : LocalInstant) (n : ℤ) : LocalInstant := ⟨t.day + n, t.msOfDay⟩

/-- The date ranges offered by the Dashboard view. -/
inductive DashRange | today | d7 | d30
  deriving DecidableEq, Repr

/-- The date ranges offered by the Analytics view. -/
inductive AnalyticsRange | all | a7 | a30 | a90
  deriving DecidableEq, Repr

/-- Dashboard `getDatesFromRange`: `end = new Date()`, `start = new Date()`
with `start.setHours(0,0,0,0)`; then `today` does `end.setHours(23,59,59,999)`,
`7d` does `start.setDate(start.getDate() - 6)`, `30d` subtracts 29. -/
def getDatesFromRange (now : LocalInstant) : DashRange → LocalInstant × LocalInstant
  | .today => (atMidnight now, atEndOfDay now)
  | .d7 => (addDays (atMidnight now) (-6), now)
  | .d30 => (addDays (atMidnight now) (-29), now)

/-- Analytics `fetchAnalytics` date predicate: for `all` no predicate at all;
for `Nd` it computes `startDate = new Date()` (the current instant, hours NOT
reset) and `startDate.setDate(startDate.getDate() - N)`, then applies only a
`gte` bound.  The second component is the (absent) upper bound: the query
never applies an `lte` on `created_at`. -/
def analyticsWindow (now : LocalInstant) : AnalyticsRange → Option LocalInstant × Option LocalInstant
  | .all => (none, none)
  | .a7 => (some (addDays now (-7)), none)
  | .a30 => (some (addDays now (-30)), none)
  | .a90 => (some (addDays now (-90)), none)

/-! ## Status Classifier -/

/-- `String.prototype.toLowerCase`, character by character (the labels in
play are ASCII). -/
def jsToLowerCase (s : String) : String := ⟨s.data.map Char.toLower⟩

/-- The sentiment classification used by Analytics `sentimentCounts`
(`curr.sentiment?.toLowerCase() || 'unknown'`) and by `StatusBadge`
(`text?.toLowerCase() || 'unknown'`): `null` gives `'unknown'`; otherwise the
label is lower-cased, and the empty string (the only falsy string) also falls
back to `'unknown'`. -/
def classifyStatus (s : Option String) : String :=
  match s with
  | none => "unknown"
  | some t => if jsToLowerCase t = "" then "unknown" else jsToLowerCase t

/-- `StatusBadge` style selection for `type = 'sentiment'`: a `switch` on the
classification with a default style for anything unrecognized. -/
def sentimentBadgeStyle (status : String) : String :=
  if status = "positive" then "bg-green-500/20 text-green-300"
  else if status = "negative" then "bg-red-500/20 text-red-300"
  else if status = "neutral" then "bg-sky-500/20 text-sky-300"
  else "bg-slate-600/20 text-slate-300"

/-! ## Scalar Aggregator: Dashboard stats (`fetchDashboardData`) -/

/-- The joined `semantic_analysis` row as selected by the Dashboard query. -/
structure DashAnalysis where
  alert_status : Option String
  sentiment : Option String
  deriving DecidableEq, Repr

/-- A `call_history` row as selected by the Dashboard query, with the joined
analysis.  The source reduces the join result (object or one-element array)
to a single value with `Array.isArray(x) ? x[0] : x`; the reduced value is
modelled directly as an `Option`. -/
structure DashCall where
  call_duration : Option ℕ
  semantic_analysis : Option DashAnalysis
  deriving DecidableEq, Repr

/-- `const totalCalls = calls.length`. -/
def totalCalls (calls : List DashCall) : ℕ := calls.length

/-- `calls.reduce((sum, call) => sum + (call.call_duration || 0), 0)`. -/
def totalDuration (calls : List DashCall) : ℕ :=
  calls.foldl (fun sum call => sum + (call.call_duration.getD 0)) 0

/-- `totalCalls > 0 ? totalDuration / totalCalls : 0`. -/
def avgDuration (calls : List DashCall) : ℚ :=
  if totalCalls calls > 0 then (totalDuration calls : ℚ) / (totalCalls calls : ℚ) else 0

/-- The per-call success test of `fetchDashboardData`:
`analysis && analysis.alert_status !== 'error' && analysis.alert_status !== 'warning'`.
A missing analysis fails the test; a present analysis passes unless its alert
status is the string `'error'` or the string `'warning'` (a `null` status is
neither, hence passes). -/
def isSuccessfulCall (call : DashCall) : Bool :=
  match call.semantic_analysis with
  | none => false
  | some analysis => analysis.alert_status ≠ some "error" ∧ analysis.alert_status ≠ some "warning"

/-- `calls.filter(...).length` with the success test above. -/
def successfulCallsCount (calls : List DashCall) : ℕ :=
  (calls.filter isSuccessfulCall).length

/-- `totalCalls > 0 ? (successfulCallsCount / totalCalls) * 100 : 0`. -/
def successRate (calls : List DashCall) : ℚ :=
  if totalCalls calls > 0 then
    ((successfulCallsCount calls : ℚ) / (totalCalls calls : ℚ)) * 100
  else 0

/-- Restatement of the spec's success-rule in its own words, for comparison
with the code's `isSuccessfulCall`: "a record counts as successful if it has
an associated AnalysisRecord AND that analysis's alert status is neither
`warning` nor `error`". -/
def specSuccessful (call : DashCall) : Prop :=
  ∃ a, call.semantic_analysis = some a ∧
    a.alert_status ≠ some "warning" ∧ a.alert_status ≠ some "error"

instance (call : DashCall) : Decidable (specSuccessful call) := by
  unfold specSuccessful
  match call.semantic_analysis with
  | none => exact .isFalse (by simp)
  | some a =>
    refine decidable_of_iff (a.alert_status ≠ some "warning" ∧ a.alert_status ≠ some "error") ?_
    simp

/-- The spec's end-to-end scenario: 10 call records, 6 with analyses, 4 of
those with alert status "ok" and 2 with "warning". -/
def tenCallScenario : List DashCall :=
  [⟨some 10, some ⟨some "ok", some "positive"⟩⟩,
   ⟨some 20, some ⟨some "ok", some "neutral"⟩⟩,
   ⟨some 30, some ⟨some "ok", some "positive"⟩⟩,
   ⟨some 40, some ⟨some "ok", none⟩⟩,
   ⟨some 50, some ⟨some "warning", some "negative"⟩⟩,
   ⟨some 60, some ⟨some "warning", none⟩⟩,
   ⟨some 70, none⟩, ⟨none, none⟩, ⟨some 90, none⟩, ⟨some 100, none⟩]

/-! ## Scalar Aggregator: Analytics `avgConfidence` -/

/-- A JavaScript number restricted to the values reachable in this code:
either an ordinary (rational) value or the IEEE `NaN` produced by `0 / 0`. -/
inductive JsNum
  | num (q : ℚ)
  | nan
  deriving DecidableEq, Repr

/-- An `semantic_analysis` row as used by the Analytics aggregation. -/
structure AnalysisRow where
  sentiment : Option String
  agent_confidence : Option ℚ
  deriving DecidableEq, Repr

/-- Analytics `avgConfidence`:
`analysisData.filter(d => d.agent_confidence !== null).reduce((sum, curr) => sum + (curr.agent_confidence || 0), 0) / analysisData.filter(d => d.agent_confidence !== null).length`.
When no row has a non-null confidence the numerator and denominator are both
0, and IEEE division gives `0 / 0 = NaN`; otherwise the quotient is an
ordinary number. -/
def avgConfidence (analysisData : List AnalysisRow) : JsNum :=
  let nonNull := analysisData.filterMap (·.agent_confidence)
  if nonNull.length = 0 then .nan
  else .num (nonNull.foldl (· + ·) 0 / (nonNull.length : ℚ))

/-- What the Average Agent Confidence card renders:
`isNaN(avgConfidence) ? 'N/A' : (avgConfidence * 100).toFixed(1) + '%'`.
The numeric branch is modelled up to decimal formatting: it carries the
percentage value. -/
inductive ConfidenceDisplay
  | notAvailable
  | percent (value : ℚ)
  deriving DecidableEq, Repr

def renderConfidence : JsNum → ConfidenceDisplay
  | .nan => .notAvailable
  | .num q => .percent (q * 100)

/-! ## Predicate Builder: SemanticAnalysisTable `fetchAnalysisData` -/

/-- `parseInt(s, 10)`: skip leading whitespace, take an optional sign and the
longest (possibly improper) prefix of decimal digits; if no digit follows,
the result is `NaN`, modelled as `none`. -/
def jsParseInt (s : String) : Option ℤ :=
  let cs := s.data.dropWhile (fun c => c = ' ' ∨ c = '\t' ∨ c = '\n' ∨ c = '\r')
  let signed : Bool × List Char :=
    match cs with
    | '-' :: rest => (true, rest)
    | '+' :: rest => (false, rest)
    | _ => (false, cs)
  let digits := signed.2.takeWhile Char.isDigit
  if digits.isEmpty then none
  else
    let v : ℕ := digits.foldl (fun acc c => acc * 10 + (c.toNat - '0'.toNat)) 0
    some (if signed.1 then -(v : ℤ) else (v : ℤ))

/-- The user-entered filter state of the SemanticAnalysisTable view (every
field is a string; the empty string means "no constraint"). -/
structure AnalysisFilters where
  sentiment : String
  alertStatus : String
  startDate : String
  endDate : String
  deriving DecidableEq, Repr

/-- One predicate of the remote-store query built by `fetchAnalysisData`.
`eqCallId` carries the `parseInt` result: `none` is the `NaN` that JavaScript
passes to `.eq('call_id', NaN)` when the input has no digit prefix. -/
inductive AnalysisPred
  | eqCallId (n : Option ℤ)
  | eqSentiment (s : String)
  | eqAlertStatus (s : String)
  | gteCreatedAt (s : String)
  | lteCreatedAt (s : String)
  deriving DecidableEq, Repr

/-- The predicate list built by `fetchAnalysisData`, in source order: each
`if (field)` guard adds its predicate exactly when the string is non-empty
(the only falsy string). -/
def buildAnalysisPreds (debouncedCallId : String) (filters : AnalysisFilters) : List AnalysisPred :=
  (if debouncedCallId ≠ "" then [AnalysisPred.eqCallId (jsParseInt debouncedCallId)] else []) ++
  (if filters.sentiment ≠ "" then [AnalysisPred.eqSentiment filters.sentiment] else []) ++
  (if filters.alertStatus ≠ "" then [AnalysisPred.eqAlertStatus filters.alertStatus] else []) ++
  (if filters.startDate ≠ "" then [AnalysisPred.gteCreatedAt (filters.startDate ++ "T00:00:00.000Z")] else []) ++
  (if filters.endDate ≠ "" then [AnalysisPred.lteCreatedAt (filters.endDate ++ "T23:59:59.999Z")] else [])

/-- Whether a predicate is an id-equality term (on any value, `NaN` included). -/
def isCallIdPred : AnalysisPred → Bool
  | .eqCallId _ => true
  | _ => false

/-! ## Detail Expansion Tracker: SemanticAnalysisTable row expansion -/

/-- A `semantic_analysis` row as far as the expansion tracker is concerned. -/
structure TableRow where
  id : ℤ
  deriving DecidableEq, Repr

/-- The component state touched by row expansion: the fetched rows and the
currently expanded row id. -/
structure TableState where
  analysisData : List TableRow
  expandedRowId : Option ℤ
  deriving DecidableEq, Repr

/-- `handleRowToggle`: `setExpandedRowId(expandedRowId === rowId ? null : rowId)`. -/
def handleRowToggle (s : TableState) (rowId : ℤ) : TableState :=
  { s with expandedRowId := if s.expandedRowId = some rowId then none else some rowId }

/-- The success branch of `fetchAnalysisData`: `setAnalysisData(data)`.  The
source updates only the data; `expandedRowId` is left untouched. -/
def applyFetchSuccess (s : TableState) (data : List TableRow) : TableState :=
  { s with analysisData := data }

/-- The expanded detail rows actually rendered: the table emits a detail row
for `row` exactly when `expandedRowId === row.id`. -/
def renderedExpandedRows (s : TableState) : List TableRow :=
  s.analysisData.filter (fun row => s.expandedRowId = some row.id)

/-! ## Query-failure handling (C9) -/

/-- The result of one remote-store query: rows, or an opaque error. -/
def QueryResult (α : Type) := Except String α

/-- The Dashboard component state touched by its two fetches. -/
structure DashboardState where
  error : Option String
  meetingsInPeriod : Option ℕ
  statsSet : Bool
  deriving DecidableEq, Repr

/-- The completion of the Dashboard's main fetch (`fetchDashboardData`), from
the point where the query result is known: an error sets a user-visible
message and returns early (no stats are set); success computes the stats. -/
def dashboardFetchComplete (s : DashboardState) : QueryResult (List DashCall) → DashboardState
  | .error _ => { s with error := some "Failed to load dashboard data. Please try again later." }
  | .ok _ => { s with error := none, statsSet := true }

/-- The completion of the Dashboard's `fetchMeetings`: an error only logs to
the console and sets the count to `0` (`setMeetingsInPeriod(0)`); it never
touches the `error` field.  Success stores the count. -/
def fetchMeetingsComplete (s : DashboardState) : QueryResult ℕ → DashboardState
  | .error _ => { s with meetingsInPeriod := some 0 }
  | .ok count => { s with meetingsInPeriod := some count }

/-- A generic single-view fetch state (Conversations, Meetings, Analytics,
SemanticAnalysisTable all follow the same shape). -/
structure ViewState (α : Type) where
  records : List α
  error : Option String
  loading : Bool

/-- The shared error-handling shape of the other views' fetches: on error set
the view's message and keep the previous records; on success store the rows
and clear the error.  `msg` is the view's fixed error string. -/
def viewFetchComplete (msg : String) (s : ViewState α) : QueryResult (List α) → ViewState α
  | .error _ => { s with error := some msg, loading := false }
  | .ok data => { s with records := data, error := none, loading := false }

/-! ## Frequency Aggregator: `countOccurrences` (Analytics) -/

/-- A JSON value as stored in the indicator-collection columns. -/
inductive Json
  | null
  | bool (b : Bool)
  | num (q : ℚ)
  | str (s : String)
  | arr (items : List Json)
  | obj (fields : List (String × Json))

/-- The value of a decimal digit string. -/
def digitsVal (cs : List Char) : ℕ :=
  cs.foldl (fun acc ch => acc * 10 + (ch.toNat - '0'.toNat)) 0

/-- Whether a property key is an ECMAScript array index: the canonical decimal
string (all digits, no leading zero except `"0"` itself) of an integer `n`
with `0 ≤ n < 2^32 - 1`.  Such keys enumerate before all other keys, in
ascending numeric order. -/
def isArrayIndexKey (s : String) : Bool :=
  match s.data with
  | [] => false
  | c :: cs =>
    (c :: cs).all Char.isDigit && (decide (c ≠ '0') || decide (cs = [])) &&
      decide (digitsVal (c :: cs) < 4294967295)

/-- The numeric value of an array-index key (its digit value; only applied to
array-index keys). -/
def keyNum (s : String) : ℕ := digitsVal s.data

/-- One step of a stable insertion sort: the new element goes in front of the
first position it may precede.  In `sortStableBy`, the inserted element comes
from earlier in the input than the already-sorted tail, so on ties (`le` both
ways) the earlier element stays first — the stability guarantee of
`Array.prototype.sort`. -/
def insertStableBy (le : α → α → Bool) (p : α) : List α → List α
  | [] => [p]
  | q :: qs => if le p q then p :: q :: qs else q :: insertStableBy le p qs

/-- Stable insertion sort. -/
def sortStableBy (le : α → α → Bool) : List α → List α
  | [] => []
  | p :: ps => insertStableBy le p (sortStableBy le ps)

/-- The order `Object.keys`/`Object.entries` enumerates the own keys of a
plain object: array-index keys first in ascending numeric order, then the
remaining keys in insertion order. -/
def jsEntriesOrder (c : List (String × ℕ)) : List (String × ℕ) :=
  sortStableBy (fun p q => keyNum p.1 ≤ keyNum q.1) (c.filter (fun p => isArrayIndexKey p.1))
    ++ c.filter (fun p => ¬ isArrayIndexKey p.1)

/-- Same enumeration order for `Object.keys` of an indicator object. -/
def jsKeysOrder (keys : List String) : List String :=
  sortStableBy (fun a b => keyNum a ≤ keyNum b) (keys.filter isArrayIndexKey)
    ++ keys.filter (fun k => ¬ isArrayIndexKey k)

/-- The labels one indicator-collection value contributes to the counter, in
the order the source visits them.  `countOccurrences` counts an object's keys
(`Object.keys(item)`), and a (truthy) array's elements that are strings
(`typeof i === 'string'`); every other value — `null`, a bare string, a
number, a boolean — matches neither `typeof item === 'object'` branch and
contributes nothing. -/
def itemLabels : Json → List String
  | .obj fields => jsKeysOrder (fields.map Prod.fst)
  | .arr items => items.filterMap (fun i => match i with | .str s => some s | _ => none)
  | _ => []

/-- `counter[k] = (counter[k] || 0) + 1` on a plain object, modelled as an
association list in key insertion order: an existing key is incremented in
place, a new key is appended. -/
def bump (c : List (String × ℕ)) (k : String) : List (String × ℕ) :=
  match c with
  | [] => [(k, 1)]
  | (k', n) :: rest => if k' = k then (k', n + 1) :: rest else (k', n) :: bump rest k

/-- The `counter` object after the two nested `forEach` loops of
`countOccurrences`. -/
def counterOf (items : List Json) : List (String × ℕ) :=
  items.foldl (fun c item => (itemLabels item).foldl bump c) []

/-- `Object.entries(counter).sort(([, a], [, b]) => b - a)`: the entries in
JavaScript enumeration order, stably sorted by descending count. -/
def rankedEntries (items : List Json) : List (String × ℕ) :=
  sortStableBy (fun p q => q.2 ≤ p.2) (jsEntriesOrder (counterOf items))

/-- `countOccurrences` of the Analytics component: count, rank, `.slice(0, 5)`. -/
def countOccurrences (items : List Json) : List (String × ℕ) :=
  (rankedEntries items).take 5

/-- All labels of an input sequence, flattened in visit order (the spec's
"concatenate the normalized sequences"). -/
def labelStream (items : List Json) : List String :=
  (items.map itemLabels).flatten

/-- The count the counter holds for a key (0 when absent). -/
def lookupCount (c : List (String × ℕ)) (k : String) : ℕ :=
  match c with
  | [] => 0
  | (k', n) :: rest => if k' = k then n else lookupCount rest k

/-- The keys of a counter, in enumeration-insertion order. -/
def keysOf (c : List (String × ℕ)) : List String := c.map Prod.fst

/-- The labels of a stream not yet in `acc`, each kept at its first
occurrence, in encounter order. -/
def firstOccsAux (acc : List String) : List String → List String
  | [] => []
  | k :: ks => if k ∈ acc then firstOccsAux acc ks else k :: firstOccsAux (acc ++ [k]) ks

/-- The subsequence of first occurrences of a label stream: each label once,
ordered by first encounter. -/
def firstOccs (l : List String) : List String := firstOccsAux [] l

/-! ## Debounced Input Stabilizer -/

/-- The debounce effect shared by the filter inputs
(`setTimeout(() => setDebounced(value), 500)` with `clearTimeout` cleanup):
given the timestamped edit sequence of one field and the teardown instant
`tEnd`, the stable values actually emitted, with their emission instants.
The timer armed by an edit at time `t` fires at `t + 500` unless an earlier
cleanup — the next edit of the same field, or teardown — cancels it first. -/
def debounceEmits : List (ℕ × String) → ℕ → List (ℕ × String)
  | [], _ => []
  | (t, v) :: rest, tEnd =>
    match rest with
    | [] => if t + 500 ≤ tEnd then [(t + 500, v)] else []
    | (t', _) :: _ =>
      (if t + 500 ≤ t' ∧ t + 500 ≤ tEnd then [(t + 500, v)] else []) ++ debounceEmits rest tEnd

/-! ## Theorems -/

/-- C3: the claim states that at both call sites every `Nd` range starts at
local midnight of (T's date minus (N−1) days) and ends at T.  The Analytics
call site refutes it: evaluated at T = day 100, 10:00:00 local
(36000000 ms), the `7d` lower bound is T shifted back 7 whole days with its
time of day intact — not midnight of day 94 — and the query has no upper
bound at all. -/
theorem c3_counterexample :
    analyticsWindow ⟨100, 36000000⟩ AnalyticsRange.a7 = (some ⟨93, 36000000⟩, none) ∧
    (analyticsWindow ⟨100, 36000000⟩ AnalyticsRange.a7).1 ≠ some ⟨94, 0⟩ := by
  constructor
  · rfl
  · decide

/-- C3 (amended): the Dashboard's `getDatesFromRange` behaves as the claim
says (`today` gives the full local calendar day; `Nd` gives midnight of
(T's date − (N−1) days) through T itself), but the Analytics call site
instead applies only a lower bound equal to T shifted back N whole days with
the time of day preserved, and `all` applies no date predicate. -/
theorem c3_date_windows (now : LocalInstant) :
    getDatesFromRange now DashRange.today = (⟨now.day, 0⟩, ⟨now.day, 86399999⟩) ∧
    getDatesFromRange now DashRange.d7 = (⟨now.day - 6, 0⟩, now) ∧
    getDatesFromRange now DashRange.d30 = (⟨now.day - 29, 0⟩, now) ∧
    analyticsWindow now AnalyticsRange.all = (none, none) ∧
    analyticsWindow now AnalyticsRange.a7 = (some ⟨now.day - 7, now.msOfDay⟩, none) ∧
    analyticsWindow now AnalyticsRange.a30 = (some ⟨now.day - 30, now.msOfDay⟩, none) ∧
    analyticsWindow now AnalyticsRange.a90 = (some ⟨now.day - 90, now.msOfDay⟩, none) := by
  refine ⟨rfl, ?_, ?_, rfl, ?_, ?_, ?_⟩ <;>
    simp [getDatesFromRange, analyticsWindow, addDays, atMidnight, sub_eq_add_neg]

/-- C4: the claim states the id-equality predicate is omitted whenever the
input is empty or not a valid integer.  On the non-empty, non-numeric input
`"abc"` the code emits the predicate anyway: `parseInt('abc', 10)` is `NaN`
(modelled `none`) and `.eq('call_id', NaN)` is added to the query. -/
theorem c4_counterexample :
    buildAnalysisPreds "abc" ⟨"", "", "", ""⟩ = [AnalysisPred.eqCallId none] ∧
    ∃ p ∈ buildAnalysisPreds "abc" ⟨"", "", "", ""⟩, isCallIdPred p = true := by
  refine ⟨by decide, AnalysisPred.eqCallId none, by decide, by decide⟩

/-- C4 (amended): the id predicate is omitted exactly when the numeric-id
input is the empty string; any non-empty input — numeric or not — produces an
id-equality predicate carrying `parseInt(input, 10)`, which is `NaN` for
non-numeric input.  The builder never throws (it is a total function), and
the only id-equality term it can produce carries that parsed value. -/
theorem c4_id_predicate (cid : String) (filters : AnalysisFilters) :
    (cid = "" → ∀ p ∈ buildAnalysisPreds cid filters, isCallIdPred p = false) ∧
    (cid ≠ "" → AnalysisPred.eqCallId (jsParseInt cid) ∈ buildAnalysisPreds cid filters) ∧
    (∀ p ∈ buildAnalysisPreds cid filters, isCallIdPred p = true →
      p = AnalysisPred.eqCallId (jsParseInt cid)) := by
  refine ⟨?_, ?_, ?_⟩
  · intro hcid p hp
    simp [buildAnalysisPreds, hcid] at hp
    rcases hp with ⟨_, rfl⟩ | ⟨_, rfl⟩ | ⟨_, rfl⟩ | ⟨_, rfl⟩ <;> rfl
  · intro hcid
    simp [buildAnalysisPreds, hcid]
  · intro p hp hid
    by_cases hcid : cid = ""
    · simp [buildAnalysisPreds, hcid] at hp
      rcases hp with ⟨_, rfl⟩ | ⟨_, rfl⟩ | ⟨_, rfl⟩ | ⟨_, rfl⟩ <;> simp [isCallIdPred] at hid
    · simp [buildAnalysisPreds, hcid] at hp
      rcases hp with rfl | ⟨_, rfl⟩ | ⟨_, rfl⟩ | ⟨_, rfl⟩ | ⟨_, rfl⟩
      · rfl
      all_goals simp [isCallIdPred] at hid

/-- C4 witness: at the concrete non-empty input `"42"` the builder emits the
id predicate with the parsed integer 42. -/
theorem c4_id_predicate_witness :
    AnalysisPred.eqCallId (jsParseInt "42") ∈ buildAnalysisPreds "42" ⟨"", "", "", ""⟩ :=
  (c4_id_predicate "42" ⟨"", "", "", ""⟩).2.1 (by decide)

/-- C9: the claim states every query failure — the Dashboard's
meetings-in-period count included — is surfaced as a user-visible error and
never silently replaced by a default such as zero.  `fetchMeetings` refutes
it: on a query error it sets the count to 0 and leaves the error field
untouched, so starting from a clean state the user sees a count of 0 and no
error message. -/
theorem c9_counterexample :
    fetchMeetingsComplete ⟨none, none, false⟩ (Except.error "query failed") =
      ⟨none, some 0, false⟩ := rfl

/-- C9 (amended): every view's main fetch surfaces a query failure as that
view's fixed user-visible message with no automatic retry and without
touching the already-displayed records — except the Dashboard's
meetings-in-period count, whose failure is silently replaced by the default
value 0, leaving the error state unchanged. -/
theorem c9_error_handling (s : DashboardState) (e : String) :
    (dashboardFetchComplete s (Except.error e)).error =
      some "Failed to load dashboard data. Please try again later." ∧
    (dashboardFetchComplete s (Except.error e)).statsSet = s.statsSet ∧
    (fetchMeetingsComplete s (Except.error e)).meetingsInPeriod = some 0 ∧
    (fetchMeetingsComplete s (Except.error e)).error = s.error ∧
    (∀ (α : Type) (msg : String) (vs : ViewState α),
      (viewFetchComplete msg vs (Except.error e)).error = some msg ∧
      (viewFetchComplete msg vs (Except.error e)).records = vs.records) :=
  ⟨rfl, rfl, rfl, rfl, fun _ _ _ => ⟨rfl, rfl⟩⟩

/-- C10: the claim states every non-null unrecognized label classifies as
`unknown`.  The label `"Wacky"` refutes it: the classification is the
lower-cased raw label `"wacky"`, not `"unknown"`. -/
theorem c10_counterexample :
    classifyStatus (some "Wacky") = "wacky" ∧ classifyStatus (some "Wacky") ≠ "unknown" := by
  constructor
  · decide
  · decide

/-- C10 (amended): the classifier is total — every input yields a label, and
no input fails a query or aggregation.  `null` and the empty string classify
as `unknown`; every other label classifies as its lower-cased raw text, so
recognized labels give their lower-case form, and unrecognized non-empty
labels pass through lower-cased (they are rendered with the default badge
style) rather than collapsing to `unknown`. -/
theorem c10_classifier :
    classifyStatus none = "unknown" ∧
    classifyStatus (some "") = "unknown" ∧
    (∀ t : String, jsToLowerCase t ≠ "" → classifyStatus (some t) = jsToLowerCase t) ∧
    classifyStatus (some "Positive") = "positive" ∧
    classifyStatus (some "NEGATIVE") = "negative" ∧
    classifyStatus (some "neutral") = "neutral" := by
  refine ⟨rfl, by decide, ?_, by decide, by decide, by decide⟩
  intro t ht
  simp [classifyStatus, ht]

/-- C10 witness: the unrecognized non-empty label `"Wacky"` classifies as its
lower-cased text. -/
theorem c10_classifier_witness : classifyStatus (some "Wacky") = jsToLowerCase "Wacky" :=
  c10_classifier.2.2.1 "Wacky" (by decide)

/-- C8: the claim states a result-set change that drops the expanded row id
resets the tracker.  The fetch-success path refutes it: with row 5 expanded,
replacing the result set by one containing only row 7 leaves the expanded id
at 5, which no longer matches any row. -/
theorem c8_counterexample :
    (applyFetchSuccess ⟨[⟨5⟩], some 5⟩ [⟨7⟩]).expandedRowId = some 5 ∧
    ∀ r ∈ (applyFetchSuccess ⟨[⟨5⟩], some 5⟩ [⟨7⟩]).analysisData, r.id ≠ 5 := by
  refine ⟨rfl, ?_⟩
  decide

/-- C8 (amended): selection toggles correctly — selecting a row expands it
exactly when it was not already the expanded one, and at most one row is
expanded at a time by construction — but a result-set change never resets the
tracker: the expanded id survives the fetch unchanged, and when the new
result set no longer contains it the stale id simply matches no row, so no
expanded detail row is rendered. -/
theorem c8_expansion (s : TableState) (rowId : ℤ) (data : List TableRow) :
    ((handleRowToggle s rowId).expandedRowId = some rowId ↔ s.expandedRowId ≠ some rowId) ∧
    (applyFetchSuccess s data).expandedRowId = s.expandedRowId ∧
    ((∀ r ∈ data, s.expandedRowId ≠ some r.id) →
      renderedExpandedRows (applyFetchSuccess s data) = []) := by
  refine ⟨?_, rfl, ?_⟩
  · unfold handleRowToggle
    by_cases h : s.expandedRowId = some rowId <;> simp [h]
  · intro h
    unfold renderedExpandedRows applyFetchSuccess
    simp only [List.filter_eq_nil_iff]
    intro r hr
    simpa using h r hr

/-- C8 witness: with row 5 expanded and a new result set `[7]`, no expanded
detail row is rendered. -/
theorem c8_expansion_witness :
    renderedExpandedRows (applyFetchSuccess ⟨[⟨5⟩], some 5⟩ [⟨7⟩]) = [] :=
  (c8_expansion ⟨[⟨5⟩], some 5⟩ 5 [⟨7⟩]).2.2 (by decide)

/-- C6: the claim states the aggregation output never contains a non-finite
numeric value.  `avgConfidence` refutes it: over a single analysis row whose
confidence is null, the aggregation computes `0 / 0 = NaN`, and that `NaN`
is the value stored in the aggregation output (`processedData`); the
`'N/A'` sentinel is substituted only at render time. -/
theorem c6_counterexample :
    avgConfidence [⟨none, none⟩] = JsNum.nan := rfl

/-- C6 (amended): `averageDuration` of an empty record set is 0 (null
durations count as 0), `successRate` with total 0 is 0 — these two have
explicit in-aggregation fallbacks — but `averageConfidence` has none: it is
the non-finite `NaN` exactly when no record has a non-null confidence score,
and the `'N/A'` ("not available") sentinel replaces it only at presentation,
so no non-finite value is displayed. -/
theorem c6_fallbacks :
    avgDuration [] = 0 ∧
    (∀ calls : List DashCall, totalCalls calls = 0 →
      avgDuration calls = 0 ∧ successRate calls = 0) ∧
    (∀ l : List AnalysisRow,
      (avgConfidence l = JsNum.nan ↔ l.filterMap (·.agent_confidence) = [])) ∧
    (∀ l : List AnalysisRow, l.filterMap (·.agent_confidence) = [] →
      renderConfidence (avgConfidence l) = ConfidenceDisplay.notAvailable) := by
  refine ⟨rfl, ?_, ?_, ?_⟩
  · intro calls h
    constructor <;> simp [avgDuration, successRate, h]
  · intro l
    constructor
    · intro hn
      by_contra hne
      have hlen : (l.filterMap (·.agent_confidence)).length ≠ 0 := by
        simpa [List.length_eq_zero] using hne
      simp [avgConfidence, hlen] at hn
    · intro he
      simp [avgConfidence, he]
  · intro l h
    unfold avgConfidence
    simp [h, renderConfidence]

/-- C6 witness: over two rows with null confidence scores, the rendered
Average Agent Confidence card shows the 'not available' sentinel. -/
theorem c6_fallbacks_witness :
    renderConfidence (avgConfidence [⟨some "positive", none⟩, ⟨none, none⟩]) =
      ConfidenceDisplay.notAvailable :=
  c6_fallbacks.2.2.2 [⟨some "positive", none⟩, ⟨none, none⟩] (by decide)

/-- C5: a call counts as successful exactly when it has an associated
analysis whose alert status is neither `warning` nor `error` (a `null`
status is neither, so it passes; a call with no analysis fails the test but
still counts in the total), and `successRate` is the successful fraction
times 100.  The code's Boolean test coincides with the spec's rule. -/
theorem c5_success_rate (calls : List DashCall) :
    (∀ call : DashCall, isSuccessfulCall call = true ↔ specSuccessful call) ∧
    (0 < totalCalls calls →
      successRate calls = (successfulCallsCount calls : ℚ) / (totalCalls calls : ℚ) * 100) := by
  constructor
  · intro call
    unfold isSuccessfulCall specSuccessful
    match h : call.semantic_analysis with
    | none => simp
    | some a => simp [and_comm]
  · intro h
    simp [successRate, h]

/-- C5 witness: the spec's end-to-end scenario — 10 calls, 6 analyses, 4
"ok" and 2 "warning" — gives total 10, successful count 4 and success rate
40%. -/
theorem c5_success_rate_witness :
    0 < totalCalls tenCallScenario ∧
    successRate tenCallScenario =
      (successfulCallsCount tenCallScenario : ℚ) / (totalCalls tenCallScenario : ℚ) * 100 ∧
    totalCalls tenCallScenario = 10 ∧
    successfulCallsCount tenCallScenario = 4 ∧
    successRate tenCallScenario = 40 := by
  refine ⟨by decide, (c5_success_rate tenCallScenario).2 (by decide), by decide, by decide, ?_⟩
  have h4 : successfulCallsCount tenCallScenario = 4 := by decide
  have h10 : totalCalls tenCallScenario = 10 := by decide
  rw [successRate, h4, h10]
  norm_num

/-- All debounce emissions happen no later than teardown: the pending timer
is cancelled by the effect cleanup at teardown. -/
theorem debounceEmits_le_tEnd :
    ∀ (es : List (ℕ × String)) (tEnd : ℕ), ∀ p ∈ debounceEmits es tEnd, p.1 ≤ tEnd := by
  intro es
  induction es with
  | nil => intro tEnd p hp; simp [debounceEmits] at hp
  | cons e rest ih =>
    intro tEnd p hp
    obtain ⟨t, v⟩ := e
    cases rest with
    | nil =>
      simp only [debounceEmits] at hp
      split at hp
      · next h =>
        simp only [List.mem_singleton] at hp
        subst hp
        exact h
      · simp at hp
    | cons e' rest' =>
      simp only [debounceEmits, List.mem_append] at hp
      rcases hp with hp | hp
      · split at hp
        · next h =>
          simp only [List.mem_singleton] at hp
          subst hp
          exact h.2
        · simp at hp
      · exact ih tEnd p hp

/-- When every gap between consecutive edits is shorter than the 500 ms
quiet period and the teardown happens at least 500 ms after the last edit,
the debounce emits exactly the last edit's value, 500 ms after it. -/
theorem debounceEmits_last_of_dense :
    ∀ (es : List (ℕ × String)) (tEnd : ℕ) (hne : es ≠ []),
      es.Chain' (fun a b => a.1 < b.1 ∧ b.1 < a.1 + 500) →
      (es.getLast hne).1 + 500 ≤ tEnd →
      debounceEmits es tEnd = [((es.getLast hne).1 + 500, (es.getLast hne).2)] := by
  intro es
  induction es with
  | nil => intro tEnd hne; exact absurd rfl hne
  | cons e rest ih =>
    intro tEnd hne hchain hlast
    obtain ⟨t, v⟩ := e
    cases rest with
    | nil =>
      simp only [debounceEmits, List.getLast_singleton] at hlast ⊢
      rw [if_pos hlast]
    | cons e' rest' =>
      have hne' : e' :: rest' ≠ [] := List.cons_ne_nil _ _
      have hgl : ((t, v) :: e' :: rest').getLast hne = (e' :: rest').getLast hne' :=
        List.getLast_cons hne'
      rw [hgl] at hlast ⊢
      have hstep : t < e'.1 ∧ e'.1 < t + 500 ∧ (e' :: rest').Chain' (fun a b => a.1 < b.1 ∧ b.1 < a.1 + 500) := by
        rw [List.chain'_cons] at hchain
        exact ⟨hchain.1.1, hchain.1.2, hchain.2⟩
      have hcond : ¬(t + 500 ≤ e'.1 ∧ t + 500 ≤ tEnd) := by
        intro hc
        exact absurd hc.1 (Nat.not_le_of_lt hstep.2.1)
      simp only [debounceEmits]
      rw [if_neg hcond, List.nil_append]
      exact ih tEnd hne' hstep.2.2 hlast

/-- C7: for every sequence of edits to a debounced field in which
consecutive edits are separated by less than 500 ms (times strictly
increasing), no emission happens after teardown, and when teardown is at
least 500 ms after the last edit exactly one value is emitted: the last
edit's value, 500 ms after that edit — every earlier edit's pending timer
was cancelled by the next edit. -/
theorem c7_debounce (es : List (ℕ × String)) (tEnd : ℕ) (hne : es ≠ [])
    (hchain : es.Chain' (fun a b => a.1 < b.1 ∧ b.1 < a.1 + 500)) :
    (∀ p ∈ debounceEmits es tEnd, p.1 ≤ tEnd) ∧
    ((es.getLast hne).1 + 500 ≤ tEnd →
      debounceEmits es tEnd = [((es.getLast hne).1 + 500, (es.getLast hne).2)]) :=
  ⟨debounceEmits_le_tEnd es tEnd, debounceEmits_last_of_dense es tEnd hne hchain⟩

/-- C7 witness: the edits "a", "ab", "abc" at 0, 300, 600 ms with teardown
at 2000 ms emit exactly `("abc", at 1100 ms)`. -/
theorem c7_debounce_witness :
    debounceEmits [(0, "a"), (300, "ab"), (600, "abc")] 2000 = [(1100, "abc")] :=
  (c7_debounce [(0, "a"), (300, "ab"), (600, "abc")] 2000 (by decide)
    (by norm_num [List.chain'_cons])).2 (by decide)

/-- One `counter[k] = (counter[k] || 0) + 1` step raises the count of `k` by
one and leaves other counts alone. -/
theorem lookupCount_bump (c : List (String × ℕ)) (k j : String) :
    lookupCount (bump c k) j = lookupCount c j + (if j = k then 1 else 0) := by
  induction c with
  | nil =>
    by_cases h : j = k
    · subst h; simp [bump, lookupCount]
    · have h' : ¬ k = j := fun e => h e.symm
      simp [bump, lookupCount, h, h']
  | cons p rest ih =>
    obtain ⟨k', n⟩ := p
    by_cases hk : k' = k
    · subst hk
      by_cases hj : k' = j
      · subst hj; simp [bump, lookupCount]
      · have hj' : ¬ j = k' := fun e => hj e.symm
        simp [bump, lookupCount, hj, hj']
    · by_cases hj : k' = j
      · subst hj
        simp [bump, lookupCount, hk]
      · simp [bump, lookupCount, hk, hj, ih]

/-- Folding the counter over a label list adds each label's number of
occurrences to its count. -/
theorem lookupCount_foldl_bump (labels : List String) (c : List (String × ℕ)) (j : String) :
    lookupCount (labels.foldl bump c) j = lookupCount c j + labels.count j := by
  induction labels generalizing c with
  | nil => simp
  | cons k ls ih =>
    simp only [List.foldl_cons, List.count_cons]
    rw [ih (bump c k), lookupCount_bump]
    by_cases h : j = k
    · subst h
      simp
      omega
    · have h' : ¬ k = j := fun e => h e.symm
      simp [h, h']

/-- The nested `forEach` loops accumulate exactly the flattened label
stream. -/
theorem counterOf_eq_foldl (items : List Json) :
    counterOf items = (labelStream items).foldl bump [] := by
  suffices h : ∀ (c : List (String × ℕ)),
      items.foldl (fun c item => (itemLabels item).foldl bump c) c = (labelStream items).foldl bump c by
    exact h []
  induction items with
  | nil => intro c; simp [labelStream]
  | cons i its ih =>
    intro c
    have hstream : labelStream (i :: its) = itemLabels i ++ labelStream its := by
      simp [labelStream]
    simp only [List.foldl_cons, hstream, List.foldl_append]
    exact ih _

/-- A bump keeps the key list unless the key is new, in which case it is
appended. -/
theorem keysOf_bump (c : List (String × ℕ)) (k : String) :
    keysOf (bump c k) = if k ∈ keysOf c then keysOf c else keysOf c ++ [k] := by
  induction c with
  | nil => simp [bump, keysOf]
  | cons p rest ih =>
    obtain ⟨k', n⟩ := p
    by_cases h : k' = k
    · subst h
      simp [bump, keysOf]
    · have h' : ¬ k = k' := fun e => h e.symm
      simp only [bump, if_neg h, keysOf, List.map_cons]
      have ih' : List.map Prod.fst (bump rest k) =
          if k ∈ List.map Prod.fst rest then List.map Prod.fst rest
          else List.map Prod.fst rest ++ [k] := ih
      rw [ih']
      by_cases hm : k ∈ List.map Prod.fst rest
      · simp [hm, h']
      · simp [hm, h']

/-- Folding bumps over a label list appends the labels' first occurrences
(relative to the keys already present) to the key list, in encounter
order. -/
theorem keysOf_foldl_bump (labels : List String) (c : List (String × ℕ)) :
    keysOf (labels.foldl bump c) = keysOf c ++ firstOccsAux (keysOf c) labels := by
  induction labels generalizing c with
  | nil => simp [firstOccsAux]
  | cons k ls ih =>
    simp only [List.foldl_cons]
    rw [ih (bump c k), keysOf_bump]
    by_cases hk : k ∈ keysOf c
    · rw [if_pos hk]
      simp [firstOccsAux, hk]
    · rw [if_neg hk]
      simp [firstOccsAux, hk, List.append_assoc]

/-- The counter's keys are exactly the first occurrences of the label
stream, in encounter order. -/
theorem keysOf_counterOf (items : List Json) :
    keysOf (counterOf items) = firstOccs (labelStream items) := by
  rw [counterOf_eq_foldl, keysOf_foldl_bump]
  simp [keysOf, firstOccs]

/-- C1: the claim states a bare string normalizes to a single-element
sequence and hence that `"a"` counts 2 in the spec's example input.  The code
refutes it: a bare string matches neither the object branch
(`typeof item === 'object'`) nor the array branch, so it contributes nothing,
and the example yields count 1 for `"a"` (and 2 for `"b"`), producing
`[("b", 2), ("a", 1)]` instead of the claimed `[("a", 2), ("b", 2)]`. -/
theorem c1_counterexample :
    countOccurrences
        [Json.arr [Json.str "a", Json.str "b"], Json.obj [("b", Json.bool true)],
         Json.str "a", Json.null] = [("b", 2), ("a", 1)] ∧
    lookupCount (counterOf
        [Json.arr [Json.str "a", Json.str "b"], Json.obj [("b", Json.bool true)],
         Json.str "a", Json.null]) "a" = 1 := by
  constructor <;> decide

/-- C1 (amended): normalization sends `null` — and also a bare string — to
the empty label sequence, an array to its string elements, an object to its
key names; each label's resulting count is exactly its number of occurrences
in the concatenation of the normalized sequences. -/
theorem c1_normalization_and_counts :
    itemLabels Json.null = [] ∧
    (∀ s : String, itemLabels (Json.str s) = []) ∧
    (∀ items : List Json, ∀ k : String,
      lookupCount (counterOf items) k = (labelStream items).count k) := by
  refine ⟨rfl, fun _ => rfl, ?_⟩
  intro items k
  rw [counterOf_eq_foldl, lookupCount_foldl_bump]
  simp [lookupCount]

/-- Inserting permutes: the result holds the new element and the old ones. -/
theorem insertStableBy_perm {α : Type} (le : α → α → Bool) (p : α) (l : List α) :
    (insertStableBy le p l).Perm (p :: l) := by
  induction l with
  | nil => exact List.Perm.refl _
  | cons q qs ih =>
    unfold insertStableBy
    by_cases h : le p q = true
    · rw [if_pos h]
    · rw [if_neg h]
      exact (ih.cons q).trans (List.Perm.swap p q qs)

/-- Sorting permutes. -/
theorem sortStableBy_perm {α : Type} (le : α → α → Bool) (l : List α) :
    (sortStableBy le l).Perm l := by
  induction l with
  | nil => exact List.Perm.refl _
  | cons p ps ih => exact (insertStableBy_perm le p _).trans (ih.cons p)

/-- The sorted list is the input up to reordering, membership included. -/
theorem mem_sortStableBy {α : Type} {le : α → α → Bool} {l : List α} {a : α} :
    a ∈ sortStableBy le l ↔ a ∈ l :=
  (sortStableBy_perm le l).mem_iff

/-- The old list survives an insertion as a subsequence. -/
theorem sublist_insertStableBy {α : Type} (le : α → α → Bool) (p : α) (l : List α) :
    List.Sublist l (insertStableBy le p l) := by
  induction l with
  | nil => exact List.nil_sublist _
  | cons q qs ih =>
    unfold insertStableBy
    by_cases h : le p q = true
    · rw [if_pos h]
      exact (List.Sublist.refl _).cons p
    · rw [if_neg h]
      exact ih.cons₂ q

/-- A total `le` is reflexive. -/
theorem le_refl_of_total {α : Type} (le : α → α → Bool)
    (htot : ∀ a b, le a b = false → le b a = true) (a : α) : le a a = true := by
  by_cases h : le a a = true
  · exact h
  · exact htot a a (by simpa using h)

/-- Insertion preserves sortedness. -/
theorem pairwise_insertStableBy {α : Type} (le : α → α → Bool)
    (htot : ∀ a b, le a b = false → le b a = true)
    (htrans : ∀ a b c, le a b = true → le b c = true → le a c = true)
    (p : α) (l : List α) (hl : l.Pairwise (fun a b => le a b = true)) :
    (insertStableBy le p l).Pairwise (fun a b => le a b = true) := by
  induction l with
  | nil => simp [insertStableBy]
  | cons q qs ih =>
    rw [List.pairwise_cons] at hl
    unfold insertStableBy
    by_cases h : le p q = true
    · rw [if_pos h]
      refine List.Pairwise.cons ?_ (List.Pairwise.cons hl.1 hl.2)
      intro x hx
      rcases List.mem_cons.mp hx with rfl | hx
      · exact h
      · exact htrans p q x h (hl.1 x hx)
    · rw [if_neg h]
      refine List.Pairwise.cons ?_ (ih hl.2)
      intro x hx
      have hx' : x = p ∨ x ∈ qs := by
        simpa using (insertStableBy_perm le p qs).mem_iff.mp hx
      rcases hx' with rfl | hx'
      · exact htot _ _ (by simpa using h)
      · exact hl.1 x hx'

/-- The stable sort is sorted. -/
theorem sortStableBy_pairwise {α : Type} (le : α → α → Bool)
    (htot : ∀ a b, le a b = false → le b a = true)
    (htrans : ∀ a b c, le a b = true → le b c = true → le a c = true)
    (l : List α) : (sortStableBy le l).Pairwise (fun a b => le a b = true) := by
  induction l with
  | nil => simp [sortStableBy]
  | cons p ps ih => exact pairwise_insertStableBy le htot htrans p _ ih

/-- An inserted element lands before every element it may precede. -/
theorem insert_pair_after {α : Type} (le : α → α → Bool)
    {p q : α} {l : List α} (hl : l.Pairwise (fun a b => le a b = true))
    (hq : q ∈ l) (hpq : le p q = true) :
    List.Sublist [p, q] (insertStableBy le p l) := by
  induction l with
  | nil => cases hq
  | cons r rs ih =>
    rw [List.pairwise_cons] at hl
    unfold insertStableBy
    by_cases h : le p r = true
    · rw [if_pos h]
      exact List.Sublist.cons₂ p (List.singleton_sublist.mpr hq)
    · rw [if_neg h]
      rcases List.mem_cons.mp hq with rfl | hq'
      · exact absurd hpq h
      · exact (ih hl.2 hq').cons r

/-- An inserted element lands after every element that must precede it. -/
theorem insert_pair_before {α : Type} (le : α → α → Bool)
    (htot : ∀ a b, le a b = false → le b a = true)
    (htrans : ∀ a b c, le a b = true → le b c = true → le a c = true)
    {p x : α} {l : List α} (hl : l.Pairwise (fun a b => le a b = true))
    (hp : p ∈ l) (hxp : le x p = false) :
    List.Sublist [p, x] (insertStableBy le x l) := by
  induction l with
  | nil => cases hp
  | cons r rs ih =>
    rw [List.pairwise_cons] at hl
    unfold insertStableBy
    by_cases h : le x r = true
    · exfalso
      have hrp : le r p = true := by
        rcases List.mem_cons.mp hp with rfl | hp'
        · exact le_refl_of_total le htot p
        · exact hl.1 p hp'
      have hxp' := htrans x r p h hrp
      rw [hxp] at hxp'
      cases hxp'
    · rw [if_neg h]
      rcases List.mem_cons.mp hp with rfl | hp'
      · refine List.Sublist.cons₂ p (List.singleton_sublist.mpr ?_)
        exact (insertStableBy_perm le x rs).mem_iff.mpr (List.mem_cons_self x rs)
      · exact (ih hl.2 hp').cons r

/-- Stability: a pair already in weak order in the input keeps its relative
order in the stable sort — in particular ties keep input order. -/
theorem sortStableBy_pair {α : Type} (le : α → α → Bool)
    (htot : ∀ a b, le a b = false → le b a = true)
    (htrans : ∀ a b c, le a b = true → le b c = true → le a c = true)
    {p q : α} {l : List α} (h : List.Sublist [p, q] l) (hpq : le p q = true) :
    List.Sublist [p, q] (sortStableBy le l) := by
  induction l with
  | nil => cases h
  | cons x xs ih =>
    cases h with
    | cons _ h' => exact (ih h').trans (sublist_insertStableBy le x _)
    | cons₂ _ h' =>
      have hq : q ∈ sortStableBy le xs :=
        mem_sortStableBy.mpr (List.singleton_sublist.mp h')
      exact insert_pair_after le (sortStableBy_pairwise le htot htrans xs) hq hpq

/-- A strictly ordered pair ends up in that order in the stable sort,
wherever the two elements were in the input. -/
theorem sortStableBy_pair_strict {α : Type} (le : α → α → Bool)
    (htot : ∀ a b, le a b = false → le b a = true)
    (htrans : ∀ a b c, le a b = true → le b c = true → le a c = true)
    {p q : α} {l : List α} (hp : p ∈ l) (hq : q ∈ l) (hqp : le q p = false) :
    List.Sublist [p, q] (sortStableBy le l) := by
  induction l with
  | nil => cases hp
  | cons x xs ih =>
    simp only [sortStableBy]
    by_cases hpx : p = x
    · rcases List.mem_cons.mp hq with hqx | hq'
      · exfalso
        rw [hqx, hpx, le_refl_of_total le htot x] at hqp
        cases hqp
      · have h1 : le x q = true := by
          rw [← hpx]
          exact htot q p hqp
        rw [hpx]
        exact insert_pair_after le (sortStableBy_pairwise le htot htrans xs)
          (mem_sortStableBy.mpr hq') h1
    · have hp' : p ∈ xs := by
        rcases List.mem_cons.mp hp with h | h
        · exact absurd h hpx
        · exact h
      rcases List.mem_cons.mp hq with rfl | hq'
      · exact insert_pair_before le htot htrans (sortStableBy_pairwise le htot htrans xs)
          (mem_sortStableBy.mpr hp') hqp
      · exact (ih hp' hq').trans (sublist_insertStableBy le x _)

/-- What `firstOccsAux` emits was not already seen. -/
theorem mem_firstOccsAux {x : String} :
    ∀ (l acc : List String), x ∈ firstOccsAux acc l → x ∉ acc := by
  intro l
  induction l with
  | nil => intro acc h; simp [firstOccsAux] at h
  | cons k ks ih =>
    intro acc h
    unfold firstOccsAux at h
    by_cases hk : k ∈ acc
    · rw [if_pos hk] at h
      exact ih acc h
    · rw [if_neg hk] at h
      rcases List.mem_cons.mp h with rfl | h'
      · exact hk
      · intro hx
        exact ih (acc ++ [k]) h' (List.mem_append_left _ hx)

/-- First occurrences are pairwise distinct. -/
theorem nodup_firstOccsAux : ∀ (l acc : List String), (firstOccsAux acc l).Nodup := by
  intro l
  induction l with
  | nil => intro acc; simp [firstOccsAux]
  | cons k ks ih =>
    intro acc
    unfold firstOccsAux
    by_cases hk : k ∈ acc
    · rw [if_pos hk]
      exact ih acc
    · rw [if_neg hk]
      refine List.Pairwise.cons ?_ (ih (acc ++ [k]))
      intro x hx he
      exact mem_firstOccsAux ks (acc ++ [k]) hx
        (he ▸ List.mem_append_right acc (List.mem_singleton_self k))

/-- The counter never holds two entries for the same key. -/
theorem nodup_keysOf_counterOf (items : List Json) : (keysOf (counterOf items)).Nodup := by
  rw [keysOf_counterOf]
  exact nodup_firstOccsAux _ []

/-- With distinct keys, a key's count is unique. -/
theorem lookup_unique {c : List (String × ℕ)} (hnd : (keysOf c).Nodup)
    {a : String} {m n : ℕ} (hm : (a, m) ∈ c) (hn : (a, n) ∈ c) : m = n := by
  induction c with
  | nil => cases hm
  | cons p rest ih =>
    obtain ⟨k, v⟩ := p
    have hnd' := hnd
    simp only [keysOf, List.map_cons, List.nodup_cons] at hnd'
    rcases List.mem_cons.mp hm with hm1 | hm2 <;> rcases List.mem_cons.mp hn with hn1 | hn2
    · rw [Prod.mk.injEq] at hm1 hn1
      rw [hm1.2, hn1.2]
    · rw [Prod.mk.injEq] at hm1
      exact absurd (List.mem_map_of_mem Prod.fst hn2) (hm1.1 ▸ hnd'.1)
    · rw [Prod.mk.injEq] at hn1
      exact absurd (List.mem_map_of_mem Prod.fst hm2) (hn1.1 ▸ hnd'.1)
    · exact ih hnd'.2 hm2 hn2

/-- A key pair in order in the (distinct) key list lifts to an entry pair in
order in the counter. -/
theorem pair_sublist_of_keys {c : List (String × ℕ)} (hnd : (keysOf c).Nodup)
    {a b : String} {m n : ℕ}
    (hab : List.Sublist [a, b] (keysOf c)) (hm : (a, m) ∈ c) (hn : (b, n) ∈ c) :
    List.Sublist [(a, m), (b, n)] c := by
  obtain ⟨l', hl', hmap⟩ :=
    List.sublist_map_iff.mp (show List.Sublist [a, b] (c.map Prod.fst) from hab)
  rcases l' with _ | ⟨⟨a', m'⟩, _ | ⟨⟨b', n'⟩, _ | ⟨x, r⟩⟩⟩ <;> simp at hmap
  obtain ⟨rfl, rfl⟩ : a = a' ∧ b = b' := ⟨hmap.1, hmap.2⟩
  have hma' : (a, m') ∈ c := hl'.mem (List.mem_cons_self _ _)
  have hnb' : (b, n') ∈ c := hl'.mem (List.mem_cons.mpr (Or.inr (List.mem_cons_self _ _)))
  rw [lookup_unique hnd hm hma', lookup_unique hnd hn hnb']
  exact hl'

/-- C2: the claim states ties always break by first-encountered order.  The
input `[["10"], ["2"]]` refutes it: both labels have count 1 and `"10"` is
encountered first, yet the output is `[("2", 1), ("10", 1)]`, because
`Object.entries` enumerates array-index-shaped keys first in ascending
numeric order before the stable sort runs. -/
theorem c2_counterexample :
    countOccurrences [Json.arr [Json.str "10"], Json.arr [Json.str "2"]] =
      [("2", 1), ("10", 1)] ∧
    firstOccs (labelStream [Json.arr [Json.str "10"], Json.arr [Json.str "2"]]) =
      ["10", "2"] ∧
    lookupCount (counterOf [Json.arr [Json.str "10"], Json.arr [Json.str "2"]]) "10" = 1 ∧
    lookupCount (counterOf [Json.arr [Json.str "10"], Json.arr [Json.str "2"]]) "2" = 1 := by
  refine ⟨?_, ?_, ?_, ?_⟩ <;> decide

/-- C2 (amended): the table is sorted descending by count and truncated to at
most 5 entries; ties between equal counts break by the counter's JavaScript
key enumeration order — labels that are not array-index-shaped keep
first-encountered order (never lexical order on the label), while
array-index-shaped labels are hoisted ahead of the stable sort in ascending
numeric order. -/
theorem c2_ranking (items : List Json) :
    (countOccurrences items).Pairwise (fun p q => q.2 ≤ p.2) ∧
    (countOccurrences items).length ≤ 5 ∧
    countOccurrences items = (rankedEntries items).take 5 ∧
    (∀ (a b : String) (m n : ℕ), isArrayIndexKey a = false → isArrayIndexKey b = false →
      List.Sublist [a, b] (firstOccs (labelStream items)) →
      (a, m) ∈ counterOf items → (b, n) ∈ counterOf items → m = n →
      List.Sublist [(a, m), (b, n)] (rankedEntries items)) ∧
    (∀ (a b : String) (m n : ℕ), isArrayIndexKey a = true → isArrayIndexKey b = true →
      keyNum a < keyNum b →
      (a, m) ∈ counterOf items → (b, n) ∈ counterOf items → m = n →
      List.Sublist [(a, m), (b, n)] (rankedEntries items)) := by
  have htotD : ∀ a b : String × ℕ,
      (decide (b.2 ≤ a.2) : Bool) = false → (decide (a.2 ≤ b.2) : Bool) = true := by
    intro a b h
    simp at h ⊢
    omega
  have htransD : ∀ a b c : String × ℕ, (decide (b.2 ≤ a.2) : Bool) = true →
      (decide (c.2 ≤ b.2) : Bool) = true → (decide (c.2 ≤ a.2) : Bool) = true := by
    intro a b c h1 h2
    simp at h1 h2 ⊢
    omega
  refine ⟨?_, ?_, rfl, ?_, ?_⟩
  · have hpw := sortStableBy_pairwise (fun p q : String × ℕ => decide (q.2 ≤ p.2))
      htotD htransD (jsEntriesOrder (counterOf items))
    have h1 : (rankedEntries items).Pairwise (fun p q : String × ℕ => q.2 ≤ p.2) := by
      rw [rankedEntries]
      refine hpw.imp ?_
      intro a b h
      simpa using h
    rw [countOccurrences]
    exact h1.sublist (List.take_sublist 5 _)
  · rw [countOccurrences, List.length_take]
    exact Nat.min_le_left _ _
  · intro a b m n ha hb hfo hm hn hmn
    have hkeys : List.Sublist [a, b] (keysOf (counterOf items)) := by
      rw [keysOf_counterOf]
      exact hfo
    have hpair := pair_sublist_of_keys (nodup_keysOf_counterOf items) hkeys hm hn
    have hfil : List.Sublist [(a, m), (b, n)]
        ((counterOf items).filter (fun p => ¬ isArrayIndexKey p.1)) := by
      have h2 := hpair.filter (fun p => ¬ isArrayIndexKey p.1)
      rwa [show ([(a, m), (b, n)].filter (fun p => ¬ isArrayIndexKey p.1)) = [(a, m), (b, n)]
        from by simp [ha, hb]] at h2
    have hentries : List.Sublist [(a, m), (b, n)] (jsEntriesOrder (counterOf items)) := by
      rw [jsEntriesOrder]
      exact hfil.trans (List.sublist_append_right _ _)
    have hdesc : (decide ((b, n).2 ≤ (a, m).2) : Bool) = true := by
      simp [hmn]
    have h3 := sortStableBy_pair (fun p q : String × ℕ => decide (q.2 ≤ p.2))
      htotD htransD hentries hdesc
    rw [rankedEntries]
    exact h3
  · intro a b m n ha hb hlt hm hn hmn
    have htotA : ∀ x y : String × ℕ, (decide (keyNum x.1 ≤ keyNum y.1) : Bool) = false →
        (decide (keyNum y.1 ≤ keyNum x.1) : Bool) = true := by
      intro x y h
      simp at h ⊢
      omega
    have htransA : ∀ x y z : String × ℕ, (decide (keyNum x.1 ≤ keyNum y.1) : Bool) = true →
        (decide (keyNum y.1 ≤ keyNum z.1) : Bool) = true →
        (decide (keyNum x.1 ≤ keyNum z.1) : Bool) = true := by
      intro x y z h1 h2
      simp at h1 h2 ⊢
      omega
    have hma : (a, m) ∈ (counterOf items).filter (fun p => isArrayIndexKey p.1) :=
      List.mem_filter.mpr ⟨hm, by simpa using ha⟩
    have hnb : (b, n) ∈ (counterOf items).filter (fun p => isArrayIndexKey p.1) :=
      List.mem_filter.mpr ⟨hn, by simpa using hb⟩
    have hstrict : (decide (keyNum (b, n).1 ≤ keyNum (a, m).1) : Bool) = false := by
      simp
      omega
    have h5 := sortStableBy_pair_strict (fun p q : String × ℕ => decide (keyNum p.1 ≤ keyNum q.1))
      htotA htransA hma hnb hstrict
    have hentries : List.Sublist [(a, m), (b, n)] (jsEntriesOrder (counterOf items)) := by
      rw [jsEntriesOrder]
      exact h5.trans (List.sublist_append_left _ _)
    have hdesc : (decide ((b, n).2 ≤ (a, m).2) : Bool) = true := by
      simp [hmn]
    have h6 := sortStableBy_pair (fun p q : String × ℕ => decide (q.2 ≤ p.2))
      htotD htransD hentries hdesc
    rw [rankedEntries]
    exact h6

/-- C2 witness: for the input `[["x"], ["y"]]` — two non-array-index labels,
both of count 1, `"x"` encountered first — the ranked table keeps
`("x", 1)` before `("y", 1)`. -/
theorem c2_ranking_witness :
    List.Sublist [("x", 1), ("y", 1)]
      (rankedEntries [Json.arr [Json.str "x"], Json.arr [Json.str "y"]]) :=
  (c2_ranking [Json.arr [Json.str "x"], Json.arr [Json.str "y"]]).2.2.2.1 "x" "y" 1 1
    (by decide) (by decide) (by decide) (by decide) (by decide) rfl

end AiDash
